import Mathlib

set_option autoImplicit false

/-!
A shallow embedding of the `redisgraph-py` client core (`graph.py`, `node.py`,
`rg_utils.py`).  Python scalar property values are modelled by the closed type
`PyVal`; Python dicts are modelled by insertion-ordered association lists with
distinct keys; the remote connection is modelled by an oracle `net : Nat → Bool`
telling whether the k-th command send succeeds, and Python exceptions by
`Except`/`Option` results (an `Except` error value carries the local state at
the moment the exception propagates).
-/

/-- A Python scalar value as used for node/edge properties and query
parameters: a text string, a bytes object (content after decoding), an
integer, a boolean, or `None`. -/
inductive PyVal where
  | str (s : String)
  | bytes (s : String)
  | int (n : Int)
  | bool (b : Bool)
  | null
  deriving DecidableEq

/-- `str(v)` for the modelled Python values. -/
def pyStr : PyVal → String
  | .str s => s
  | .bytes s => "b\x27" ++ s ++ "\x27"
  | .int n => toString n
  | .bool b => if b then "True" else "False"
  | .null => "None"

/-- The second step of `rg_utils.quote_string` on a string: append a double
quote when the last character is not already a double quote. -/
def quoteAddLast (v : List Char) : List Char :=
  if v.getLast? ≠ some '"' then v ++ ['"'] else v

/-- The string branch of `rg_utils.quote_string`, on the character list of the
string: the empty string becomes `""`; otherwise a double quote is prepended
when the first character is not already a double quote, and then a double
quote is appended when the (possibly updated) last character is not already a
double quote. -/
def quoteStrChars : List Char → List Char
  | [] => ['"', '"']
  | c :: cs => quoteAddLast (if c ≠ '"' then '"' :: c :: cs else c :: cs)

/-- `rg_utils.quote_string` restricted to text input. -/
def quoteStringStr (s : String) : String := String.mk (quoteStrChars s.data)

/-- `rg_utils.quote_string`: bytes are decoded to text first; a non-string
value is returned unchanged; a string is wrapped in double quotes as in
`quoteStrChars`. -/
def quote_string : PyVal → PyVal
  | .bytes s => .str (quoteStringStr s)
  | .str s => .str (quoteStringStr s)
  | v => v

/-- First character of the identifier regex `[a-zA-Z_]`. -/
def isIdentStart (c : Char) : Bool :=
  ('a' ≤ c && c ≤ 'z') || ('A' ≤ c && c ≤ 'Z') || c = '_'

/-- Subsequent characters of the identifier regex `[0-9a-zA-Z_]`. -/
def isIdentCont (c : Char) : Bool :=
  isIdentStart c || ('0' ≤ c && c ≤ '9')

/-- Full match of the bare regex `[a-zA-Z_][0-9a-zA-Z_]*` on a character
list. -/
def matchIdent : List Char → Bool
  | [] => false
  | c :: cs => isIdentStart c && cs.all isIdentCont

/-- `re.match` of `VALID_CYPHER_IDENIFIER` (`^[a-zA-Z_][0-9a-zA-Z_]*$`)
against `s`, as a Boolean.  Python's `$` matches at the end of the string or
just before a newline at the end of the string, so a valid identifier followed
by exactly one trailing newline also matches. -/
def reMatchIdent (s : String) : Bool :=
  matchIdent s.data || (s.data.getLast? == some '\n' && matchIdent s.data.dropLast)

/-- `rg_utils.validate_cypher_identifier`.  `Except.error` models the raised
`ValueError`; `Except.ok b` models returning `is_valid = b` (after at most a
logged warning). -/
def validate_cypher_identifier (identifier : Option String)
    (none_is_okay raise_on_invalid : Bool) : Except String Bool :=
  match identifier with
  | none =>
    if none_is_okay then .ok true
    else if raise_on_invalid then .error "Invalid Cypher identifier. Found \x27None\x27"
    else .ok false
  | some s =>
    if reMatchIdent s then .ok true
    else if raise_on_invalid then .error ("Invalid Cypher identifier: \x27" ++ s ++ "\x27")
    else .ok false

/-- `node.Node`: remote id, alias, label and the insertion-ordered property
mapping. -/
structure Node where
  id : Option Int
  «alias» : Option String
  label : Option String
  properties : List (String × PyVal)
  deriving DecidableEq

/-- `pandas.notnull` on the modelled values: false exactly on `None`. -/
def pdNotnull (v : PyVal) : Bool := v != PyVal.null

/-- The comma-joined inner text of a rendered property block:
`','.join(key+':'+str(quote_string(val)) ...)` over the entries whose value is
not null. -/
def propsFragment (ps : List (String × PyVal)) : String :=
  String.intercalate ","
    ((ps.filter (fun kv => pdNotnull kv.2)).map
      (fun kv => kv.1 ++ ":" ++ pyStr (quote_string kv.2)))

/-- Python truthiness of an optional string (`None` and `""` are falsy). -/
def optTruthy : Option String → Bool
  | none => false
  | some s => !s.isEmpty

/-- `Node.toString` from the source: just the property block, present exactly
when the property mapping is non-empty. -/
def Node.toString (n : Node) : String :=
  if !n.properties.isEmpty then "\x7b" ++ propsFragment n.properties ++ "\x7d" else ""

/-- The first half of `Node.__str__`: `(` followed by the alias when truthy
and by `:label` when the label is truthy. -/
def Node.strPre (n : Node) : String :=
  let res := "("
  let res := if optTruthy n.«alias» then res ++ n.«alias».getD "" else res
  if optTruthy n.label then res ++ ":" ++ n.label.getD "" else res

/-- `Node.__str__`: `(` + truthy alias + `:label` when the label is truthy +
property block when the mapping is non-empty + `)`. -/
def Node.str (n : Node) : String :=
  let res := Node.strPre n
  let res :=
    if !n.properties.isEmpty then res ++ "\x7b" ++ propsFragment n.properties ++ "\x7d"
    else res
  res ++ ")"

/-- Python `dict` equality on the association lists that model dicts (lists
with pairwise-distinct keys): same number of entries and each entry of one is
found, with the same value, in the other. -/
def dictEq (p q : List (String × PyVal)) : Bool :=
  p.length == q.length &&
  p.all (fun kv => q.lookup kv.1 == some kv.2) &&
  q.all (fun kv => p.lookup kv.1 == some kv.2)

/-- `Node.__eq__`: ids that are both set and equal short-circuit to true;
otherwise the labels must match, then the number of properties, then the
property dicts. -/
def nodeEq (n rhs : Node) : Bool :=
  if n.id.isSome && rhs.id.isSome && n.id == rhs.id then true
  else if n.label != rhs.label then false
  else if n.properties.length != rhs.properties.length then false
  else if !dictEq n.properties rhs.properties then false
  else true

/-- Modelled from the spec: the `Edge` entity type lives in `edge.py`, which
is not among the sources; per the spec it holds `src_node`/`dest_node`
references, an optional `relation` tag and a properties mapping shaped like a
node's. -/
structure Edge where
  src_node : Node
  dest_node : Node
  relation : Option String
  properties : List (String × PyVal)
  deriving DecidableEq

/-- Modelled from the spec: an edge renders as the fragment
`(src)-[:relation(properties)]->(dest)` (with round brackets standing for the
property-block braces), referencing the endpoints' aliases and omitting
null-valued properties, analogously to a node. -/
def Edge.str (e : Edge) : String :=
  "(" ++ e.src_node.«alias».getD "" ++ ")-[" ++
    (match e.relation with | some r => ":" ++ r | none => "") ++
    (if !e.properties.isEmpty then "\x7b" ++ propsFragment e.properties ++ "\x7d" else "") ++
  "]->(" ++ e.dest_node.«alias».getD "" ++ ")"

/-- `graph.Graph`'s local state: the believed-current node table and edge
list, the lazily cached label/property/relationship-type dictionaries, the
pending (not yet flushed) collections, and the recreate confirmation flag.
The node table and the pending-node map are insertion-ordered association
lists keyed by alias, mirroring Python dicts. -/
structure Graph where
  name : String
  flush_rate : Nat
  recreate_flag : Bool
  nodes : List (String × Node)
  edges : List Edge
  _labels : List (Option String)
  _properties : List (Option String)
  _relationshipTypes : List (Option String)
  _nodes_to_commit : List (String × Node)
  _edges_to_commit : List Edge

/-- `Graph._initialize`: reset every piece of local state (all collections to
empty, the recreate flag to false); the connection name and flush rate are
untouched. -/
def Graph._initialize (g : Graph) : Graph :=
  { g with
    recreate_flag := false
    nodes := []
    edges := []
    _labels := []
    _properties := []
    _relationshipTypes := []
    _nodes_to_commit := []
    _edges_to_commit := [] }

/-- `dict.get` on the node table with an optional key: `None` is never a key
(aliases are strings), so it looks up only present string keys. -/
def nodesGet (nodes : List (String × Node)) : Option String → Option Node
  | none => none
  | some a => nodes.lookup a

/-- `Graph.add_edge`: when `validate_nodes` is set, assert that both endpoint
aliases resolve in the node table (`none` models the `AssertionError`);
then append the edge to `edges` and to the pending-edge list. -/
def Graph.add_edge (g : Graph) (edge : Edge) (validate_nodes : Bool) : Option Graph :=
  if validate_nodes &&
      !((nodesGet g.nodes edge.src_node.«alias»).isSome &&
        (nodesGet g.nodes edge.dest_node.«alias»).isSome) then
    none
  else
    some { g with
      edges := g.edges ++ [edge]
      _edges_to_commit := g._edges_to_commit ++ [edge] }

/-- The constant `CREATE_STR`. -/
def CREATE_STR : String := "CREATE "

/-- The loop of `Graph._commit_list`, abstracted to the list of batches it
sends: `i` is the running index, `acc` the fragments accumulated in the
buffer since the last send.  A batch is sent whenever `i % flush_rate`
reaches `flush_rate - 1`, and a final batch is sent after the walk exactly
when the buffer is non-empty (`len(q) > len(CREATE_STR)`). -/
def commitLoop (fr : Nat) : Nat → List String → List String → List (List String)
  | _, acc, [] => if acc.isEmpty then [] else [acc]
  | i, acc, item :: rest =>
    if i % fr = fr - 1 then (acc ++ [item]) :: commitLoop fr (i + 1) [] rest
    else commitLoop fr (i + 1) (acc ++ [item]) rest

/-- The batches (lists of rendered fragments, in order) that
`Graph._commit_list` sends for the given items: none at all when the item
list is empty. -/
def commitBatches (fr : Nat) (items : List String) : List (List String) :=
  if items.length = 0 then [] else commitLoop fr 0 [] items

/-- The contiguous chunks of a list: pieces of `fr` elements in order, the
last piece holding the remainder.  This is the specification against which
the send loop of `Graph._commit_list` is proved. -/
def chunksOf (fr : Nat) : List String → List (List String)
  | [] => []
  | x :: xs => (x :: xs.take (fr - 1)) :: chunksOf fr (xs.drop (fr - 1))
  termination_by l => l.length
  decreasing_by simp [List.length_drop]; omega

/-- The defensive cleanup in `Graph.query`: a trailing comma on the composed
query is stripped before sending. -/
def stripTrailingComma (q : String) : String :=
  if q.data.getLast? == some ',' then String.mk q.data.dropLast else q

/-- The query text built for one batch: the `CREATE ` prefix followed by each
fragment with a trailing comma. -/
def batchQuery (b : List String) : String :=
  CREATE_STR ++ String.join (b.map (fun s => s ++ ","))

/-- The bulk-create commands (after `query`'s trailing-comma strip) that a
nodes flush sends: the pending nodes are walked in insertion order and each
is rendered with `Node.__str__`. -/
def Graph.nodeQueries (g : Graph) : List String :=
  (commitBatches g.flush_rate (g._nodes_to_commit.map (fun kv => Node.str kv.2))).map
    (fun b => stripTrailingComma (batchQuery b))

/-- The bulk-create commands that an edges flush sends, over the pending-edge
list in append order. -/
def Graph.edgeQueries (g : Graph) : List String :=
  (commitBatches g.flush_rate (g._edges_to_commit.map Edge.str)).map
    (fun b => stripTrailingComma (batchQuery b))

/-- Send a list of commands through the network oracle starting at send
counter `k`: returns the next counter value when every send succeeds, `none`
at the first send that raises. -/
def sendBatches (net : Nat → Bool) : Nat → List String → Option Nat
  | k, [] => some k
  | k, _ :: qs => if net k then sendBatches net (k + 1) qs else none

/-- `Graph._commit_nodes` under the network oracle: send every node batch,
and only after all of them succeeded clear the pending-node map.  A raise
propagates (`Except.error`) with the local state exactly as it was. -/
def Graph.commitNodesExec (net : Nat → Bool) (k : Nat) (g : Graph) :
    Except Graph (Nat × Graph) :=
  match sendBatches net k (Graph.nodeQueries g) with
  | some next => .ok (next, { g with _nodes_to_commit := [] })
  | none => .error g

/-- `Graph._commit_edges` under the network oracle, analogous to the nodes
flush. -/
def Graph.commitEdgesExec (net : Nat → Bool) (k : Nat) (g : Graph) :
    Except Graph (Nat × Graph) :=
  match sendBatches net k (Graph.edgeQueries g) with
  | some next => .ok (next, { g with _edges_to_commit := [] })
  | none => .error g

/-- `Graph.commit`: flush pending nodes, then pending edges; a raise in
either flush propagates with the state it left behind. -/
def Graph.commitExec (net : Nat → Bool) (g : Graph) : Except Graph Graph :=
  match Graph.commitNodesExec net 0 g with
  | .error g1 => .error g1
  | .ok (k, g1) =>
    match Graph.commitEdgesExec net k g1 with
    | .error g2 => .error g2
    | .ok (_, g2) => .ok g2

/-- `Graph.delete`: reset all local state via `_initialize`, then issue the
remote `GRAPH.DELETE` command; `net_ok` tells whether that command succeeds,
and on failure the raise propagates with the (already reset) local state. -/
def Graph.delete (net_ok : Bool) (g : Graph) : Except Graph Graph :=
  let g' := Graph._initialize g
  if net_ok then .ok g' else .error g'

/-- The value text used by `Graph.build_params_header` for one parameter:
strings are quoted, `None` becomes the literal `null`, anything else is
`str(value)`. -/
def paramValue : PyVal → String
  | .str s => pyStr (quote_string (.str s))
  | .null => "null"
  | v => pyStr v

/-- `Graph.build_params_header`: `CYPHER ` followed by `key=value ` for each
parameter in order. -/
def build_params_header (params : List (String × PyVal)) : String :=
  params.foldl (fun h kv => h ++ kv.1 ++ "=" ++ paramValue kv.2 ++ " ") "CYPHER "

/-- A concrete node used to instantiate the theorems below. -/
def nodeA : Node :=
  { id := none, «alias» := some "a", label := some "L", properties := [] }

/-- A second concrete node. -/
def nodeB : Node :=
  { id := none, «alias» := some "b", label := none, properties := [] }

/-- A concrete edge between `nodeA` and `nodeB`. -/
def edgeAB : Edge :=
  { src_node := nodeA, dest_node := nodeB, relation := some "R", properties := [] }

/-- A concrete graph state holding `nodeA` and `nodeB`, both pending. -/
def graphW : Graph :=
  { name := "g"
    flush_rate := 2
    recreate_flag := false
    nodes := [("a", nodeA), ("b", nodeB)]
    edges := []
    _labels := []
    _properties := []
    _relationshipTypes := []
    _nodes_to_commit := [("a", nodeA), ("b", nodeB)]
    _edges_to_commit := [] }

theorem quoteAddLast_getLast (v : List Char) : (quoteAddLast v).getLast? = some '"' := by
  unfold quoteAddLast
  split
  · exact List.getLast?_concat _
  · next h => exact not_not.mp h

theorem quoteAddLast_head (v : List Char) (c : Char) (h : v.head? = some c) :
    (quoteAddLast v).head? = some c := by
  unfold quoteAddLast
  cases v with
  | nil => simp at h
  | cons a l =>
    simp only [List.head?_cons, Option.some.injEq] at h
    split <;> simp [h]

theorem quoteStrChars_getLast (cs : List Char) : (quoteStrChars cs).getLast? = some '"' := by
  cases cs with
  | nil => rfl
  | cons c cs => exact quoteAddLast_getLast _

theorem quoteStrChars_head (cs : List Char) : (quoteStrChars cs).head? = some '"' := by
  cases cs with
  | nil => rfl
  | cons c cs =>
    unfold quoteStrChars
    by_cases hc : c = '"'
    · exact quoteAddLast_head _ _ (by simp [hc])
    · exact quoteAddLast_head _ _ (by simp [hc])

theorem quoteStrChars_idem (cs : List Char) :
    quoteStrChars (quoteStrChars cs) = quoteStrChars cs := by
  obtain ⟨t, ht⟩ : ∃ t, quoteStrChars cs = '"' :: t := by
    have h := quoteStrChars_head cs
    cases hq : quoteStrChars cs with
    | nil => rw [hq] at h; simp at h
    | cons a l =>
      rw [hq] at h
      simp only [List.head?_cons, Option.some.injEq] at h
      exact ⟨l, by rw [h]⟩
  have hlast := quoteStrChars_getLast cs
  rw [ht] at hlast
  rw [ht]
  unfold quoteStrChars quoteAddLast
  simp [hlast]

theorem quoteStringStr_data (s : String) : (quoteStringStr s).data = quoteStrChars s.data := rfl

theorem quoteStringStr_idem (s : String) :
    quoteStringStr (quoteStringStr s) = quoteStringStr s := by
  unfold quoteStringStr
  exact congrArg String.mk (quoteStrChars_idem s.data)

theorem dictEq_length (p q : List (String × PyVal)) (h : dictEq p q = true) :
    p.length = q.length := by
  simp only [dictEq, Bool.and_eq_true, beq_iff_eq] at h
  exact h.1.1

/-- C3: the claim that the Value Formatter renders an absent value as the
literal text `null` is false on the code: `quote_string` applied to `None`
returns `None` unchanged, which is not the text `null`. -/
theorem C3_counterexample :
    quote_string PyVal.null = PyVal.null ∧ quote_string PyVal.null ≠ PyVal.str "null" :=
  ⟨rfl, by decide⟩

/-- C3 (amended): `quote_string` passes a null value through unchanged; the
rendering of null as the literal `null` happens in `build_params_header`
(the parameterized-query header builder), not in the formatter. -/
theorem C3_null_rendering :
    quote_string PyVal.null = PyVal.null ∧
    paramValue PyVal.null = "null" ∧
    build_params_header [("k", PyVal.null)] = "CYPHER k=null " :=
  ⟨rfl, rfl, by decide⟩

/-- C4: two nodes whose ids are both set and equal compare equal regardless
of their properties; with both ids unset, equality holds exactly when the
labels and the full property mappings agree; the alias never influences the
comparison. -/
theorem C4_node_equality (n m : Node) :
    (∀ i : Int, n.id = some i → m.id = some i → nodeEq n m = true) ∧
    (n.id = none → m.id = none →
      (nodeEq n m = true ↔ (n.label = m.label ∧ dictEq n.properties m.properties = true))) ∧
    (∀ a b : Option String,
      nodeEq { n with «alias» := a } { m with «alias» := b } = nodeEq n m) := by
  refine ⟨?_, ?_, ?_⟩
  · intro i h1 h2
    simp [nodeEq, h1, h2]
  · intro h1 h2
    constructor
    · intro h
      by_cases hl : n.label = m.label
      · by_cases hd : dictEq n.properties m.properties = true
        · exact ⟨hl, hd⟩
        · simp [nodeEq, h1, h2, hl, hd] at h
      · simp [nodeEq, h1, h2, hl] at h
    · rintro ⟨hl, hd⟩
      have hlen := dictEq_length _ _ hd
      simp [nodeEq, h1, h2, hl, hd, hlen]
  · intro a b
    rfl

/-- Witness for C4 at concrete nodes: equal ids despite different labels and
properties. -/
theorem C4_node_equality_witness :
    nodeEq { id := some 7, «alias» := some "x", label := some "A", properties := [] }
      { id := some 7, «alias» := some "y", label := some "B",
        properties := [("p", PyVal.int 1)] } = true :=
  (C4_node_equality _ _).1 7 rfl rfl

/-- C5: with node validation enabled, `add_edge` fails with the modelled
assertion error whenever either endpoint alias does not resolve in the node
table; when both resolve, the assertion branch is not taken and the edge is
appended to both the edge list and the pending-edge list. -/
theorem C5_add_edge_validation (g : Graph) (e : Edge) :
    (((nodesGet g.nodes e.src_node.«alias»).isSome = false ∨
      (nodesGet g.nodes e.dest_node.«alias»).isSome = false) →
      Graph.add_edge g e true = none) ∧
    ((nodesGet g.nodes e.src_node.«alias»).isSome = true →
     (nodesGet g.nodes e.dest_node.«alias»).isSome = true →
      Graph.add_edge g e true =
        some { g with
          edges := g.edges ++ [e]
          _edges_to_commit := g._edges_to_commit ++ [e] }) := by
  constructor
  · intro h
    rcases h with h | h <;> simp [Graph.add_edge, h]
  · intro h1 h2
    simp [Graph.add_edge, h1, h2]

/-- Witness for C5: adding `edgeAB` to `graphW`, whose table holds both
endpoints, appends it to both edge collections. -/
theorem C5_add_edge_validation_witness :
    Graph.add_edge graphW edgeAB true =
      some { graphW with
        edges := graphW.edges ++ [edgeAB]
        _edges_to_commit := graphW._edges_to_commit ++ [edgeAB] } :=
  (C5_add_edge_validation graphW edgeAB).2 (by decide) (by decide)

/-- C9: `delete` resets all local state (node table, edge list, both pending
collections, the three cached dictionaries and the recreate flag) before
issuing the remote delete command, so the local state is empty afterwards
even when the remote command raises. -/
theorem C9_delete_resets (g : Graph) (ok : Bool) (g' : Graph)
    (h : Graph.delete ok g = .ok g' ∨ Graph.delete ok g = .error g') :
    g'.nodes = [] ∧ g'.edges = [] ∧ g'._nodes_to_commit = [] ∧
    g'._edges_to_commit = [] ∧ g'._labels = [] ∧ g'._properties = [] ∧
    g'._relationshipTypes = [] ∧ g'.recreate_flag = false ∧
    g' = Graph._initialize g := by
  have hg : g' = Graph._initialize g := by
    rcases h with h | h <;> cases ok <;> simp [Graph.delete] at h <;> exact h.symm
  subst hg
  simp [Graph._initialize]

/-- Witness for C9: deleting `graphW` while the remote command raises still
leaves the local state empty. -/
theorem C9_delete_resets_witness :
    (Graph._initialize graphW).nodes = [] ∧ (Graph._initialize graphW).edges = [] ∧
    (Graph._initialize graphW)._nodes_to_commit = [] ∧
    (Graph._initialize graphW)._edges_to_commit = [] ∧
    (Graph._initialize graphW)._labels = [] ∧
    (Graph._initialize graphW)._properties = [] ∧
    (Graph._initialize graphW)._relationshipTypes = [] ∧
    (Graph._initialize graphW).recreate_flag = false ∧
    Graph._initialize graphW = Graph._initialize graphW :=
  C9_delete_resets graphW false (Graph._initialize graphW) (Or.inr rfl)

/-- C6: rendering the node with alias `a`, label `Person` and the single
property `name: Bob` yields exactly the nine-token pattern claimed; and a
null-valued property entry contributes nothing to the inner text of a
rendered property block, at any position. -/
theorem C6_node_round_trip :
    Node.str { id := none, «alias» := some "a", label := some "Person",
               properties := [("name", PyVal.str "Bob")] }
      = "(a:Person\x7bname:\"Bob\"\x7d)" ∧
    ∀ (l1 l2 : List (String × PyVal)) (k : String),
      propsFragment (l1 ++ (k, PyVal.null) :: l2) = propsFragment (l1 ++ l2) := by
  constructor
  · decide
  · intro l1 l2 k
    simp [propsFragment, List.filter_append, pdNotnull]

/-- C10: a node whose property mapping is non-empty but all of whose values
are null still renders with an (empty) property block: the inner text is
empty and the braces are emitted. -/
theorem C10_all_null_props_block (n : Node)
    (hne : n.properties ≠ [])
    (hnull : ∀ kv ∈ n.properties, kv.2 = PyVal.null) :
    propsFragment n.properties = "" ∧
    ∃ s : String, Node.str n = s ++ "\x7b\x7d" ++ ")" := by
  have hpf : propsFragment n.properties = "" := by
    have hfil : n.properties.filter (fun kv => pdNotnull kv.2) = [] := by
      rw [List.filter_eq_nil_iff]
      intro kv hkv
      simp [pdNotnull, hnull kv hkv]
    simp only [propsFragment, hfil, List.map_nil]
    rfl
  refine ⟨hpf, Node.strPre n, ?_⟩
  have hemp : n.properties.isEmpty = false := by
    cases h : n.properties with
    | nil => exact absurd h hne
    | cons a l => rfl
  unfold Node.str
  simp only [hemp, Bool.not_false, if_true, hpf, String.append_empty]
  rw [String.append_assoc (Node.strPre n) "\x7b" "\x7d"]
  rfl

/-- Witness for C10: a node whose only property value is null renders with an
empty property block. -/
theorem C10_all_null_props_block_witness :
    propsFragment [("k", PyVal.null)] = "" ∧
    ∃ s : String, Node.str { id := none, «alias» := some "a", label := none,
                             properties := [("k", PyVal.null)] } = s ++ "\x7b\x7d" ++ ")" :=
  C10_all_null_props_block
    { id := none, «alias» := some "a", label := none,
      properties := [("k", PyVal.null)] } (by decide) (by decide)

/-- C7: quoting is idempotent on text values; the empty string renders as two
double-quote characters; and a non-empty string already holding a double
quote at both ends is returned unchanged (a quote is added at an end only
when that end does not already hold one). -/
theorem C7_quote_idempotent :
    (∀ s : String, quote_string (quote_string (PyVal.str s)) = quote_string (PyVal.str s)) ∧
    quoteStringStr "" = "\"\"" ∧
    (∀ s : String, s.data.head? = some '"' → s.data.getLast? = some '"' →
      quoteStringStr s = s) := by
  refine ⟨?_, by decide, ?_⟩
  · intro s
    simp [quote_string, quoteStringStr_idem]
  · intro s h1 h2
    have hdata : quoteStrChars s.data = s.data := by
      cases hd : s.data with
      | nil => rw [hd] at h1; simp at h1
      | cons c t =>
        rw [hd] at h1 h2
        simp only [List.head?_cons, Option.some.injEq] at h1
        subst h1
        unfold quoteStrChars quoteAddLast
        simp [h2]
    cases s with
    | mk d => exact congrArg String.mk hdata

/-- Witness for C7: a string already wrapped in quotes is left unchanged. -/
theorem C7_quote_idempotent_witness :
    quoteStringStr "\"a\"" = "\"a\"" :=
  C7_quote_idempotent.2.2 "\"a\"" (by decide) (by decide)

theorem getLast_eq_some_iff_concat (l : List Char) (c : Char) :
    l.getLast? = some c ↔ ∃ t, l = t ++ [c] := by
  constructor
  · intro h
    induction l with
    | nil => simp at h
    | cons a l ih =>
      cases l with
      | nil =>
        simp only [List.getLast?_singleton, Option.some.injEq] at h
        exact ⟨[], by simp [h]⟩
      | cons b m =>
        rw [List.getLast?_cons_cons] at h
        obtain ⟨t, ht⟩ := ih h
        exact ⟨a :: t, by simp [ht]⟩
  · rintro ⟨t, rfl⟩
    exact List.getLast?_concat _

theorem matchIdent_iff (cs : List Char) :
    matchIdent cs = true ↔
      ∃ c t, cs = c :: t ∧ isIdentStart c = true ∧ ∀ x ∈ t, isIdentCont x = true := by
  cases cs with
  | nil => simp [matchIdent]
  | cons c t =>
    simp only [matchIdent, Bool.and_eq_true, List.all_eq_true, List.cons.injEq]
    constructor
    · rintro ⟨hs, hc⟩
      exact ⟨c, t, ⟨rfl, rfl⟩, hs, hc⟩
    · rintro ⟨c1, t1, ⟨rfl, rfl⟩, hs, hc⟩
      exact ⟨hs, hc⟩

/-- C8 counterexample: the validator accepts the name made of a letter
followed by a newline, although the newline is outside the allowed character
set, so not every string violating the identifier rule is rejected. -/
theorem C8_counterexample :
    validate_cypher_identifier (some "a\n") true true = Except.ok true ∧
    matchIdent "a\n".data = false :=
  ⟨rfl, by decide⟩

/-- C8 (amended): the validator accepts a name iff it is non-empty, begins
with an ASCII letter or underscore and continues with ASCII letters, digits
or underscores, or it is such an identifier followed by exactly one trailing
newline (an artifact of matching a dollar-anchored pattern with `re.match`);
every other string is rejected, raising a descriptive error when configured
to raise and returning false otherwise; an absent name is accepted by
default. -/
theorem C8_validator (s : String) (nok r : Bool) :
    (validate_cypher_identifier (some s) nok r = .ok true ↔ reMatchIdent s = true) ∧
    (reMatchIdent s = true ↔
      ((∃ c t, s.data = c :: t ∧ isIdentStart c = true ∧ ∀ x ∈ t, isIdentCont x = true) ∨
       (∃ c t, s.data = (c :: t) ++ ['\n'] ∧ isIdentStart c = true ∧
         ∀ x ∈ t, isIdentCont x = true))) ∧
    (reMatchIdent s = false → r = true →
      ∃ m, validate_cypher_identifier (some s) nok r = .error m) ∧
    (reMatchIdent s = false → r = false →
      validate_cypher_identifier (some s) nok r = .ok false) ∧
    (validate_cypher_identifier none true r = .ok true) := by
  refine ⟨?_, ?_, ?_, ?_, rfl⟩
  · by_cases hm : reMatchIdent s = true
    · simp [validate_cypher_identifier, hm]
    · cases r <;> simp [validate_cypher_identifier, hm]
  · unfold reMatchIdent
    simp only [Bool.or_eq_true, Bool.and_eq_true, beq_iff_eq]
    constructor
    · rintro (h | ⟨hl, hm⟩)
      · exact Or.inl ((matchIdent_iff _).mp h)
      · obtain ⟨u, hu⟩ := (getLast_eq_some_iff_concat _ _).mp hl
        rw [hu, List.dropLast_concat] at hm
        obtain ⟨c, t, hct, hs, hc⟩ := (matchIdent_iff _).mp hm
        exact Or.inr ⟨c, t, by rw [hu, hct], hs, hc⟩
    · rintro (⟨c, t, hct, hs, hc⟩ | ⟨c, t, hct, hs, hc⟩)
      · exact Or.inl ((matchIdent_iff _).mpr ⟨c, t, hct, hs, hc⟩)
      · refine Or.inr ⟨by rw [hct]; exact List.getLast?_concat _, ?_⟩
        rw [hct, List.dropLast_concat]
        exact (matchIdent_iff _).mpr ⟨c, t, rfl, hs, hc⟩
  · intro hm hr
    subst hr
    refine ⟨"Invalid Cypher identifier: \x27" ++ s ++ "\x27", ?_⟩
    simp [validate_cypher_identifier, hm]
  · intro hm hr
    subst hr
    simp [validate_cypher_identifier, hm]

/-- Witness for C8: a name starting with a digit is rejected with a raised
error when the validator is configured to raise. -/
theorem C8_validator_witness :
    ∃ m, validate_cypher_identifier (some "9x") true true = Except.error m :=
  (C8_validator "9x" true true).2.2.1 (by decide) rfl

theorem chunksOf_nil (fr : Nat) : chunksOf fr [] = [] := by rw [chunksOf]

theorem chunksOf_cons (fr : Nat) (x : String) (xs : List String) :
    chunksOf fr (x :: xs) = (x :: xs.take (fr - 1)) :: chunksOf fr (xs.drop (fr - 1)) := by
  rw [chunksOf]

theorem chunksOf_eq_cons (fr : Nat) (hfr : 0 < fr) (l : List String) (hl : l ≠ []) :
    chunksOf fr l = l.take fr :: chunksOf fr (l.drop fr) := by
  cases l with
  | nil => exact absurd rfl hl
  | cons x xs =>
    obtain ⟨k, rfl⟩ : ∃ k, fr = k + 1 := ⟨fr - 1, by omega⟩
    rw [chunksOf_cons]
    simp [List.take_succ_cons, List.drop_succ_cons]

theorem chunksOf_flatten (fr : Nat) (hfr : 0 < fr) (l0 : List String) :
    (chunksOf fr l0).flatten = l0 := by
  suffices h : ∀ (n : Nat) (l : List String), l.length = n → (chunksOf fr l).flatten = l by
    exact h l0.length l0 rfl
  intro n
  induction n using Nat.strong_induction_on with
  | _ n ih =>
    intro l hl
    cases l with
    | nil => rw [chunksOf_nil]; rfl
    | cons x xs =>
      rw [chunksOf_eq_cons fr hfr _ (by simp), List.flatten_cons]
      rw [ih ((x :: xs).drop fr).length (by subst hl; simp [List.length_drop]; omega) _ rfl]
      exact List.take_append_drop fr (x :: xs)

theorem chunksOf_length (fr : Nat) (hfr : 0 < fr) (l0 : List String) :
    (chunksOf fr l0).length = (l0.length + fr - 1) / fr := by
  suffices h : ∀ (n : Nat) (l : List String), l.length = n →
      (chunksOf fr l).length = (l.length + fr - 1) / fr by
    exact h l0.length l0 rfl
  intro n
  induction n using Nat.strong_induction_on with
  | _ n ih =>
    intro l hl
    have key : ∀ m : Nat, 1 ≤ m → (m + fr - 1) / fr = (m - 1) / fr + 1 := by
      intro m hm
      have harg : m + fr - 1 = (m - 1) + fr := by omega
      rw [harg, Nat.add_div_right _ hfr]
    cases l with
    | nil =>
      rw [chunksOf_nil]
      simp only [List.length_nil, Nat.zero_add]
      rw [Nat.div_eq_of_lt (by omega)]
    | cons x xs =>
      rw [chunksOf_eq_cons fr hfr _ (by simp), List.length_cons]
      rw [ih ((x :: xs).drop fr).length (by subst hl; simp [List.length_drop]; omega) _ rfl]
      simp only [List.length_drop, List.length_cons]
      rcases le_or_lt (xs.length + 1) fr with hle | hlt
      · have h0 : xs.length + 1 - fr = 0 := by omega
        rw [h0, key (xs.length + 1) (by omega)]
        have e1 : (0 + fr - 1) / fr = 0 := by
          rw [Nat.zero_add]
          exact Nat.div_eq_of_lt (by omega)
        have e2 : (xs.length + 1 - 1) / fr = 0 := Nat.div_eq_of_lt (by omega)
        rw [e1, e2]

      · have harg : xs.length + 1 - fr + fr - 1 = xs.length := by omega
        rw [harg, key (xs.length + 1) (by omega)]
        simp

theorem getLastQ_cons_of_ne_nil {α : Type} (a : α) (l : List α) (h : l ≠ []) :
    (a :: l).getLast? = l.getLast? := by
  cases l with
  | nil => exact absurd rfl h
  | cons b t => exact List.getLast?_cons_cons

theorem chunksOf_sizes (fr : Nat) (hfr : 0 < fr) (l0 : List String) :
    (∀ b ∈ (chunksOf fr l0).dropLast, b.length = fr) ∧
    (l0 ≠ [] → ∃ lb, (chunksOf fr l0).getLast? = some lb ∧
      lb.length = if l0.length % fr = 0 then fr else l0.length % fr) := by
  suffices h : ∀ (n : Nat) (l : List String), l.length = n →
      (∀ b ∈ (chunksOf fr l).dropLast, b.length = fr) ∧
      (l ≠ [] → ∃ lb, (chunksOf fr l).getLast? = some lb ∧
        lb.length = if l.length % fr = 0 then fr else l.length % fr) by
    exact h l0.length l0 rfl
  intro n
  induction n using Nat.strong_induction_on with
  | _ n ih =>
    intro l hl
    cases l with
    | nil =>
      rw [chunksOf_nil]
      exact ⟨by intro b hb; simp at hb, fun h => absurd rfl h⟩
    | cons x xs =>
      rw [chunksOf_eq_cons fr hfr _ (by simp)]
      by_cases hsmall : (x :: xs).length ≤ fr
      · have hdrop : (x :: xs).drop fr = [] := List.drop_eq_nil_of_le hsmall
        rw [hdrop, chunksOf_nil]
        constructor
        · intro b hb
          simp at hb
        · intro _
          refine ⟨(x :: xs).take fr, by simp, ?_⟩
          have htl : ((x :: xs).take fr).length = (x :: xs).length := by
            rw [List.length_take]
            omega
          rw [htl]
          rcases Nat.lt_or_ge (x :: xs).length fr with hlen | hge
          · rw [Nat.mod_eq_of_lt hlen, if_neg (by simp)]
          · have heq : (x :: xs).length = fr := by omega
            rw [heq, Nat.mod_self, if_pos rfl]
      · push_neg at hsmall
        have hd_ne : (x :: xs).drop fr ≠ [] := by
          intro hcontra
          have hcl := congrArg List.length hcontra
          simp only [List.length_drop, List.length_nil] at hcl
          simp only [List.length_cons] at hcl hsmall
          omega
        have hrec := ih ((x :: xs).drop fr).length
          (by subst hl; simp [List.length_drop]; omega) _ rfl
        obtain ⟨ihA, ihB⟩ := hrec
        obtain ⟨lb, hlb1, hlb2⟩ := ihB hd_ne
        have hch_ne : chunksOf fr ((x :: xs).drop fr) ≠ [] := by
          rw [chunksOf_eq_cons fr hfr _ hd_ne]
          simp
        constructor
        · intro b hb
          rw [List.dropLast_cons_of_ne_nil hch_ne] at hb
          rcases List.mem_cons.mp hb with hb | hb
          · subst hb
            rw [List.length_take]
            omega
          · exact ihA b hb
        · intro _
          refine ⟨lb, ?_, ?_⟩
          · rw [getLastQ_cons_of_ne_nil _ _ hch_ne]
            exact hlb1
          · rw [hlb2]
            have hmod : (x :: xs).length % fr = ((x :: xs).drop fr).length % fr := by
              rw [List.length_drop]
              exact Nat.mod_eq_sub_mod (by omega)
            rw [hmod]

theorem commitLoop_eq_chunksOf (fr : Nat) (hfr : 0 < fr) :
    ∀ (xs : List String) (i : Nat) (acc : List String),
      acc.length = i % fr → commitLoop fr i acc xs = chunksOf fr (acc ++ xs) := by
  intro xs
  induction xs with
  | nil =>
    intro i acc hacc
    simp only [commitLoop, List.append_nil]
    cases acc with
    | nil => rw [chunksOf_nil]; rfl
    | cons a as =>
      have hmod := Nat.mod_lt i hfr
      have hlen : as.length ≤ fr - 1 := by
        simp only [List.length_cons] at hacc
        omega
      rw [chunksOf_cons, List.take_of_length_le hlen, List.drop_eq_nil_of_le hlen,
        chunksOf_nil]
      rfl
  | cons x xs ih =>
    intro i acc hacc
    simp only [commitLoop]
    by_cases hflush : i % fr = fr - 1
    · rw [if_pos hflush]
      have hnext : (i + 1) % fr = 0 := by
        have hd := Nat.div_add_mod i fr
        generalize hK : fr * (i / fr) = K at hd
        have h1 : i + 1 = K + fr := by omega
        rw [h1, ← hK, ← Nat.mul_succ]
        exact Nat.mul_mod_right fr _
      rw [ih (i + 1) [] (by simp [hnext]), List.nil_append]
      rw [chunksOf_eq_cons fr hfr (acc ++ x :: xs) (by simp)]
      have hlen : acc.length = fr - 1 := by rw [hacc, hflush]
      congr 1
      · rw [List.take_append_eq_append_take, List.take_of_length_le (by omega)]
        have h2 : fr - acc.length = 1 := by omega
        rw [h2]
        rfl
      · rw [List.drop_append_eq_append_drop, List.drop_eq_nil_of_le (by omega)]
        have h2 : fr - acc.length = 1 := by omega
        rw [h2]
        rfl
    · rw [if_neg hflush]
      have hmod := Nat.mod_lt i hfr
      have hfr2 : 2 ≤ fr := by
        rcases Nat.eq_or_lt_of_le hfr with h1 | h1
        · exact absurd (by omega : i % fr = fr - 1) hflush
        · omega
      have hnext : (i + 1) % fr = i % fr + 1 := by
        have h1 : (i + 1) % fr = (i % fr + 1 % fr) % fr := Nat.add_mod i 1 fr
        rw [Nat.mod_eq_of_lt (by omega : (1 : Nat) < fr)] at h1
        rw [h1, Nat.mod_eq_of_lt (by omega)]
      rw [ih (i + 1) (acc ++ [x]) (by simp [hnext, hacc])]
      congr 1
      simp

theorem commitBatches_eq_chunksOf (fr : Nat) (hfr : 0 < fr) (items : List String) :
    commitBatches fr items = chunksOf fr items := by
  unfold commitBatches
  by_cases h : items.length = 0
  · rw [if_pos h, List.length_eq_zero.mp h, chunksOf_nil]
  · rw [if_neg h]
    have hc := commitLoop_eq_chunksOf fr hfr items 0 [] (by simp)
    rw [hc, List.nil_append]

theorem sendBatches_all_ok (net : Nat → Bool) :
    ∀ (qs : List String) (k k' : Nat), sendBatches net k qs = some k' →
      ∀ j < qs.length, net (k + j) = true := by
  intro qs
  induction qs with
  | nil =>
    intro k k' _ j hj
    simp at hj
  | cons q qs ih =>
    intro k k' h j hj
    simp only [sendBatches] at h
    by_cases hk : net k
    · cases j with
      | zero => simpa using hk
      | succ j' =>
        rw [if_pos hk] at h
        have hrec := ih (k + 1) k' h j' (by simp at hj; omega)
        have harr : k + 1 + j' = k + (j' + 1) := by omega
        rwa [harr] at hrec
    · rw [if_neg hk] at h
      cases h

/-- C1: for every positive flush rate and non-empty pending list, the flush
sends exactly ceil(n/flush_rate) batches whose concatenation is the item
list in order, every batch before the last holding exactly `flush_rate`
fragments and the last the remainder; with flush rate 2 and five pending
nodes exactly three commands of sizes 2, 2, 1 are sent; a successful nodes
flush leaves zero pending nodes; and an empty pending collection causes no
network send at all. -/
theorem C1_batching (fr : Nat) (items : List String) (hfr : 0 < fr)
    (hne : items ≠ []) :
    ((commitBatches fr items).length = (items.length + fr - 1) / fr ∧
     (∀ b ∈ (commitBatches fr items).dropLast, b.length = fr) ∧
     (∃ lb, (commitBatches fr items).getLast? = some lb ∧
        lb.length = if items.length % fr = 0 then fr else items.length % fr) ∧
     (commitBatches fr items).flatten = items) ∧
    commitBatches fr ([] : List String) = [] ∧
    (commitBatches 2 ["a", "b", "c", "d", "e"]).map List.length = [2, 2, 1] ∧
    (∀ g : Graph, g.flush_rate = 2 → g._nodes_to_commit.length = 5 →
      (Graph.nodeQueries g).length = 3) ∧
    (∀ (net : Nat → Bool) (k k' : Nat) (g g' : Graph),
      Graph.commitNodesExec net k g = .ok (k', g') → g'._nodes_to_commit = []) ∧
    (∀ (net : Nat → Bool) (k : Nat) (g : Graph), g._nodes_to_commit = [] →
      Graph.nodeQueries g = [] ∧
      Graph.commitNodesExec net k g = .ok (k, { g with _nodes_to_commit := [] })) := by
  refine ⟨⟨?_, ?_, ?_, ?_⟩, ?_, by decide, ?_, ?_, ?_⟩
  · rw [commitBatches_eq_chunksOf fr hfr]
    exact chunksOf_length fr hfr items
  · rw [commitBatches_eq_chunksOf fr hfr]
    exact (chunksOf_sizes fr hfr items).1
  · rw [commitBatches_eq_chunksOf fr hfr]
    exact (chunksOf_sizes fr hfr items).2 hne
  · rw [commitBatches_eq_chunksOf fr hfr]
    exact chunksOf_flatten fr hfr items
  · simp [commitBatches]
  · intro g h2 h5
    unfold Graph.nodeQueries
    rw [List.length_map, h2, commitBatches_eq_chunksOf 2 (by omega),
      chunksOf_length 2 (by omega), List.length_map, h5]
  · intro net k k' g g' h
    unfold Graph.commitNodesExec at h
    split at h
    · cases h
      rfl
    · cases h
  · intro net k g hempty
    have hq : Graph.nodeQueries g = [] := by
      unfold Graph.nodeQueries
      rw [hempty]
      simp [commitBatches]
    refine ⟨hq, ?_⟩
    unfold Graph.commitNodesExec
    rw [hq]
    rfl

/-- Witness for C1 at flush rate 2 with five items: three batches. -/
theorem C1_batching_witness :
    (commitBatches 2 ["a", "b", "c", "d", "e"]).length =
      ((["a", "b", "c", "d", "e"] : List String).length + 2 - 1) / 2 :=
  (C1_batching 2 ["a", "b", "c", "d", "e"] (by decide) (by decide)).1.1

/-- C2: a raise during a flush propagates with the whole local state — in
particular both pending collections — exactly as it was when the flush was
entered; a flush clears its pending collection only when every one of its
batch sends succeeded. -/
theorem C2_flush_failure (net : Nat → Bool) (k : Nat) (g : Graph) :
    (∀ g', Graph.commitNodesExec net k g = .error g' →
      g'._nodes_to_commit = g._nodes_to_commit ∧
      g'._edges_to_commit = g._edges_to_commit ∧ g' = g) ∧
    (∀ k' g', Graph.commitNodesExec net k g = .ok (k', g') →
      g'._nodes_to_commit = [] ∧ g'._edges_to_commit = g._edges_to_commit ∧
      ∀ j < (Graph.nodeQueries g).length, net (k + j) = true) ∧
    (∀ g', Graph.commitEdgesExec net k g = .error g' →
      g'._nodes_to_commit = g._nodes_to_commit ∧
      g'._edges_to_commit = g._edges_to_commit ∧ g' = g) ∧
    (∀ k' g', Graph.commitEdgesExec net k g = .ok (k', g') →
      g'._edges_to_commit = [] ∧ g'._nodes_to_commit = g._nodes_to_commit ∧
      ∀ j < (Graph.edgeQueries g).length, net (k + j) = true) := by
  refine ⟨?_, ?_, ?_, ?_⟩
  · intro g' h
    unfold Graph.commitNodesExec at h
    split at h
    · cases h
    · cases h
      exact ⟨rfl, rfl, rfl⟩
  · intro k' g' h
    unfold Graph.commitNodesExec at h
    split at h
    · rename_i nxt heq
      cases h
      exact ⟨rfl, rfl, fun j hj => sendBatches_all_ok net _ k _ heq j hj⟩
    · cases h
  · intro g' h
    unfold Graph.commitEdgesExec at h
    split at h
    · cases h
    · cases h
      exact ⟨rfl, rfl, rfl⟩
  · intro k' g' h
    unfold Graph.commitEdgesExec at h
    split at h
    · rename_i nxt heq
      cases h
      exact ⟨rfl, rfl, fun j hj => sendBatches_all_ok net _ k _ heq j hj⟩
    · cases h

/-- Witness for C2: with a network that fails every send and `graphW`'s two
pending nodes, the nodes flush raises and leaves the state untouched. -/
theorem C2_flush_failure_witness :
    graphW._nodes_to_commit = graphW._nodes_to_commit ∧
    graphW._edges_to_commit = graphW._edges_to_commit ∧ graphW = graphW :=
  (C2_flush_failure (fun _ => false) 0 graphW).1 graphW rfl
